import Mathlib

/-!
Verification of the augmented interval tree in
src/Data_Structures/IntervalTree/IntervalTree.h.

The C++ template is instantiated at its default `T = int`; we embed the
element type as `Int` (with the `int` minimum `-2147483648` made explicit
where the source uses `std::numeric_limits<T>::min()`).  `std::shared_ptr<T>
data` payloads (which may be null) are embedded as `Option Int`, and the
node graph, which is tree-shaped by construction, as an inductive tree.
`size_t size` arithmetic is taken modulo `2 ^ 64`.

Undefined behaviour (a null `shared_ptr` dereference inside the rotation
helpers, reachable from `Insert`) is embedded by returning `Option`: `none`
means the operation does not complete.  All other operations are total.
-/

namespace CCM

/-- `struct Interval` (IntervalTree.h lines 18-44): a closed range `[low, high]`. -/
structure Interval where
  low : Int
  high : Int
deriving DecidableEq, Repr

/-- A node payload: `std::shared_ptr<T> data`, `none` embedding the null pointer. -/
abbrev Payload := Option Int

/-- `struct Node` (lines 51-67): interval, cached subtree `max`, children, payload.
`nil` embeds the null `shared_ptr<Node<T>>`. -/
inductive Tree where
  | nil : Tree
  | node (interval : Interval) (max : Int) (left : Tree) (right : Tree) (data : Payload) : Tree
deriving DecidableEq, Repr

namespace Tree

/-- Whether this child pointer is null. -/
def isNil : Tree → Bool
  | nil => true
  | node _ _ _ _ _ => false

/-- The `max` field of a (non-null) node; `0` is returned for the null tree but
is never consulted by the embedded operations. -/
def maxField : Tree → Int
  | nil => 0
  | node _ m _ _ _ => m

/-- The guard `child && child->max >= v` used by every query to decide whether
to descend into the left child (lines 482, 505, 529, 571, 593). -/
def maxAtLeast : Tree → Int → Bool
  | nil, _ => false
  | node _ m _ _ _, v => v ≤ m

/-- In-order list of the (interval, payload) pairs stored in a subtree
(the verification-side view of the node graph; not source code). -/
def pairs : Tree → List (Interval × Payload)
  | nil => []
  | node iv _ l r d => pairs l ++ (iv, d) :: pairs r

/-- Number of nodes reachable from this root (verification-side). -/
def countNodes : Tree → Nat
  | nil => 0
  | node _ _ l r _ => countNodes l + countNodes r + 1

/-- `IntervalTree::Height` (lines 601-609): `0` for null, else `1 + max` of children. -/
def Height : Tree → Nat
  | nil => 0
  | node _ _ l r _ => 1 + max (Height l) (Height r)

/-- `IntervalTree::GetBalance` (lines 611-619): `Height(left) - Height(right)`. -/
def GetBalance : Tree → Int
  | nil => 0
  | node _ _ l r _ => (Height l : Int) - (Height r : Int)

/-- The body of `IntervalTree::UpdateMax` (lines 439-454): recompute this node's
`max` from its own `high` and the `max` fields of the present children. -/
def computeMax (iv : Interval) (l r : Tree) : Int :=
  let m1 := iv.high
  let m2 := match l with
    | nil => m1
    | node _ lm _ _ _ => max m1 lm
  match r with
  | nil => m2
  | node _ rm _ _ _ => max m2 rm

/-- `IntervalTree::UpdateMax` (lines 439-454), as the returned updated node. -/
def UpdateMax : Tree → Tree
  | nil => nil
  | node iv _ l r d => node iv (computeMax iv l r) l r d

/-- `IntervalTree::RotateRight` (lines 621-633).  `node->left` is dereferenced
unconditionally; a null left child is undefined behaviour, embedded as `none`. -/
def RotateRight : Tree → Option Tree
  | nil => none
  | node iv m l r d =>
    match l with
    | nil => none
    | node liv _ ll lr ld =>
      some (UpdateMax (node liv 0 ll (UpdateMax (Tree.node iv m lr r d)) ld))

/-- `IntervalTree::RotateLeft` (lines 635-647), the mirror image. -/
def RotateLeft : Tree → Option Tree
  | nil => none
  | node iv m l r d =>
    match r with
    | nil => none
    | node riv _ rl rr rd =>
      some (UpdateMax (node riv 0 (UpdateMax (Tree.node iv m l rl d)) rr rd))

/-- The rebalancing tail of the private `IntervalTree::Insert` (lines 371-397):
inspect the balance factor and rotate.  When the balance is `> 1` (resp. `< -1`)
the source dereferences `node->left` (resp. `node->right`); in the `balance < -1`
branch the dispatch is `i.low > node->right->interval.low`, so an inserted key
EQUAL to the right child's key takes the rotate-right-then-left branch. -/
def rebalance (n : Tree) (i : Interval) : Option Tree :=
  let b := GetBalance n
  if 1 < b then
    match n with
    | nil => none
    | node iv m l r d =>
      match l with
      | nil => none
      | node liv _ _ _ _ =>
        if i.low < liv.low then RotateRight (node iv m l r d)
        else
          match RotateLeft l with
          | none => none
          | some l2 => RotateRight (node iv m l2 r d)
  else if b < -1 then
    match n with
    | nil => none
    | node iv m l r d =>
      match r with
      | nil => none
      | node riv _ _ _ _ =>
        if riv.low < i.low then RotateLeft (node iv m l r d)
        else
          match RotateRight r with
          | none => none
          | some r2 => RotateLeft (node iv m l r2 d)
  else some n

/-- The private `IntervalTree::Insert` (lines 352-398): BST insertion keyed on
`low` (ties go right), `UpdateMax` on the way back up, then rebalancing. -/
def Insert : Tree → Interval → Payload → Option Tree
  | nil, i, d => some (node i i.high nil nil d)
  | node iv m l r d0, i, d =>
    if i.low < iv.low then
      match Insert l i d with
      | none => none
      | some l2 => rebalance (UpdateMax (node iv m l2 r d0)) i
    else
      match Insert r i d with
      | none => none
      | some r2 => rebalance (UpdateMax (node iv m l r2 d0)) i

/-- `IntervalTree::FindMin` (lines 456-464): leftmost node of a subtree. -/
def FindMin : Tree → Tree
  | nil => nil
  | node iv m l r d =>
    match l with
    | nil => node iv m l r d
    | node liv lm ll lr ld => FindMin (node liv lm ll lr ld)

/-- The private `IntervalTree::Remove` (lines 400-437): BST deletion keyed on
`i.low` alone.  A node with at most one child is spliced out (returned child is
NOT re-`UpdateMax`ed — it is returned directly); a node with two children takes
its in-order successor's interval and payload and deletes the successor. -/
def Remove : Tree → Interval → Tree
  | nil, _ => nil
  | node iv m l r d, i =>
    if i.low < iv.low then UpdateMax (node iv m (Remove l i) r d)
    else if iv.low < i.low then UpdateMax (node iv m l (Remove r i) d)
    else
      if l.isNil then r
      else if r.isNil then l
      else
        match FindMin r with
        | nil => nil
        | node miv _ _ _ md => UpdateMax (node miv m l (Remove r miv) md)

/-- The private `IntervalTree::FindContaining` (lines 466-489): test the node,
descend left only under the `max` guard, always descend right; matches are
appended (`emplace_back`) to the accumulator. -/
def FindContaining : Tree → Int → List (Interval × Payload) → List (Interval × Payload)
  | nil, _, result => result
  | node iv _ l r d, value, result =>
    let r1 := if iv.low ≤ value ∧ value ≤ iv.high then result ++ [(iv, d)] else result
    let r2 := if maxAtLeast l value then FindContaining l value r1 else r1
    FindContaining r value r2

/-- The private `IntervalTree::FindOverlapping` (lines 491-511). -/
def FindOverlapping : Tree → Int → Int → List (Interval × Payload) → List (Interval × Payload)
  | nil, _, _, result => result
  | node iv _ l r d, low, high, result =>
    let r1 := if iv.low ≤ high ∧ low ≤ iv.high then result ++ [(iv, d)] else result
    let r2 := if maxAtLeast l low then FindOverlapping l low high r1 else r1
    FindOverlapping r low high r2

/-- The private `IntervalTree::MaxHighOverlapping` (lines 513-536): thread the
running maximum through node, guarded left descent, and right descent. -/
def MaxHighOverlapping : Tree → Int → Int → Int → Int
  | nil, _, _, maxValue => maxValue
  | node iv _ l r _, low, high, maxValue =>
    let a1 := if iv.low ≤ high ∧ low ≤ iv.high then max maxValue iv.high else maxValue
    let a2 := if maxAtLeast l low then MaxHighOverlapping l low high a1 else a1
    MaxHighOverlapping r low high a2

/-- The private `IntervalTree::FindByMinMax` (lines 538-554).  The source tests
the current node and then makes recursive calls `FindByMinMax(node->left, min,
max)` and `FindByMinMax(node->right, min, max)` that do NOT thread the result
accumulator (they name no overload that exists), so the child subtrees
contribute nothing to `result`: only the root of the queried subtree is ever
tested.  The embedding renders that literal behaviour. -/
def FindByMinMax : Tree → Int → Int → List (Interval × Payload) → List (Interval × Payload)
  | nil, _, _, result => result
  | node iv _ _ _ d, min, max, result =>
    if min ≤ iv.high ∧ iv.low ≤ max then result ++ [(iv, d)] else result

/-- Modelled from the spec (section 9): the repaired range query that `FindByMinMax`
was intended to be, with the accumulator threaded through both unconditional
child traversals exactly where the source drops it. -/
def FindByMinMaxSpec : Tree → Int → Int → List (Interval × Payload) → List (Interval × Payload)
  | nil, _, _, result => result
  | node iv _ l r d, min, max, result =>
    let r1 := if min ≤ iv.high ∧ iv.low ≤ max then result ++ [(iv, d)] else result
    let r2 := FindByMinMaxSpec l min max r1
    FindByMinMaxSpec r min max r2

/-- The private boolean `IntervalTree::Contains` (lines 556-578): on a left
descent the right subtree is never consulted. -/
def Contains : Tree → Int → Bool
  | nil, _ => false
  | node iv _ l r _, value =>
    if iv.low ≤ value ∧ value ≤ iv.high then true
    else if maxAtLeast l value then Contains l value
    else Contains r value

/-- The private boolean `IntervalTree::Overlaps` (lines 580-599). -/
def Overlaps : Tree → Int → Int → Bool
  | nil, _, _ => false
  | node iv _ l r _, low, high =>
    if iv.low ≤ high ∧ low ≤ iv.high then true
    else if maxAtLeast l low then Overlaps l low high
    else Overlaps r low high

/-- One rendered interval, `"[" << low << ", " << high << "] "` (line 655). -/
def renderInterval (iv : Interval) : String :=
  "[" ++ toString iv.low ++ ", " ++ toString iv.high ++ "] "

/-- The private `IntervalTree::ToString` (lines 649-658): in-order traversal. -/
def ToString : Tree → String
  | nil => ""
  | node iv _ l r _ => ToString l ++ renderInterval iv ++ ToString r

end Tree

/-- `std::numeric_limits<int>::min()`, the sentinel used by the public
`MaxHighOverlapping` (line 299). -/
def intMin : Int := -2147483648

/-- `size_t` modulus: the tree's `size` member is a `size_t`. -/
def W64 : Nat := 18446744073709551616

/-- `class IntervalTree` state: root pointer and `size_t size` (lines 164-166). -/
structure IntervalTree where
  Root : Tree
  size : Nat
deriving DecidableEq, Repr

namespace IntervalTree

/-- The default-constructed empty tree (line 78). -/
def empty : IntervalTree := ⟨Tree.nil, 0⟩

/-- Outcome of the public `Insert`: the `std::invalid_argument` throw (tree
unchanged, carried explicitly), undefined behaviour inside rebalancing, or a
new state. -/
inductive InsOutcome where
  | thrown (s : IntervalTree) : InsOutcome
  | crash : InsOutcome
  | ok (s : IntervalTree) : InsOutcome
deriving DecidableEq, Repr

/-- The public `IntervalTree::Insert` (lines 252-261): validate `low ≤ high`
(throwing before any mutation otherwise), insert at the root, increment `size`. -/
def Insert (s : IntervalTree) (i : Interval) (d : Payload) : InsOutcome :=
  if i.high < i.low then .thrown s
  else
    match Tree.Insert s.Root i d with
    | none => .crash
    | some root2 => .ok ⟨root2, (s.size + 1) % W64⟩

/-- The public `IntervalTree::Remove` (lines 263-271): probe `Contains(i.low)`
(a point-containment check), and only when it succeeds run the low-keyed
deletion and decrement `size`. -/
def Remove (s : IntervalTree) (i : Interval) : IntervalTree :=
  if Tree.Contains s.Root i.low then
    ⟨Tree.Remove s.Root i, (s.size + (W64 - 1)) % W64⟩
  else s

/-- The public `IntervalTree::Update` (lines 273-278): `Remove` then `Insert`.
The `Insert` may throw or hit undefined behaviour after the removal happened. -/
def Update (s : IntervalTree) (oldI newI : Interval) (d : Payload) : InsOutcome :=
  Insert (Remove s oldI) newI d

/-- The public `IntervalTree::Clear` (lines 324-329). -/
def Clear (_ : IntervalTree) : IntervalTree := ⟨Tree.nil, 0⟩

/-- The public `IntervalTree::IsEmpty` (lines 337-341). -/
def IsEmpty (s : IntervalTree) : Bool := s.Root.isNil

/-- The public `IntervalTree::Size` (lines 331-335). -/
def Size (s : IntervalTree) : Nat := s.size

/-- The public `IntervalTree::Containing` (lines 280-286). -/
def Containing (s : IntervalTree) (value : Int) : List (Interval × Payload) :=
  Tree.FindContaining s.Root value []

/-- The public `IntervalTree::Overlapping` (lines 288-294). -/
def Overlapping (s : IntervalTree) (low high : Int) : List (Interval × Payload) :=
  Tree.FindOverlapping s.Root low high []

/-- The public `IntervalTree::MaxHighOverlapping` (lines 296-302): the running
maximum starts at `std::numeric_limits<int>::min()`. -/
def MaxHighOverlapping (s : IntervalTree) (low high : Int) : Int :=
  Tree.MaxHighOverlapping s.Root low high intMin

/-- The public `IntervalTree::FindByMinMax` (lines 304-310). -/
def FindByMinMax (s : IntervalTree) (min max : Int) : List (Interval × Payload) :=
  Tree.FindByMinMax s.Root min max []

/-- The public boolean `IntervalTree::Contains` (lines 312-316). -/
def Contains (s : IntervalTree) (value : Int) : Bool :=
  Tree.Contains s.Root value

/-- The public boolean `IntervalTree::Overlaps` (lines 318-322). -/
def Overlaps (s : IntervalTree) (low high : Int) : Bool :=
  Tree.Overlaps s.Root low high

/-- The public `IntervalTree::ToString` (lines 343-350). -/
def ToString (s : IntervalTree) : String :=
  Tree.ToString s.Root

end IntervalTree

/-- A public mutating call, for stating properties of operation sequences. -/
inductive Op where
  | insert (i : Interval) (d : Payload) : Op
  | remove (i : Interval) : Op
  | update (oldI newI : Interval) (d : Payload) : Op
  | clear : Op
deriving DecidableEq, Repr

/-- Run one operation.  `none` embeds undefined behaviour (the process state is
lost); a thrown `invalid_argument` leaves the tree unchanged and the run
continues with that unchanged tree. -/
def applyOp (s : IntervalTree) : Op → Option IntervalTree
  | Op.insert i d =>
    match IntervalTree.Insert s i d with
    | .thrown s2 => some s2
    | .crash => none
    | .ok s2 => some s2
  | Op.remove i => some (IntervalTree.Remove s i)
  | Op.update oldI newI d =>
    match IntervalTree.Update s oldI newI d with
    | .thrown s2 => some s2
    | .crash => none
    | .ok s2 => some s2
  | Op.clear => some (IntervalTree.Clear s)

/-- Run a sequence of public operations. -/
def runOps : IntervalTree → List Op → Option IntervalTree
  | s, [] => some s
  | s, op :: ops =>
    match applyOp s op with
    | none => none
    | some s2 => runOps s2 ops

/-- An operation is an `Insert` or a `Remove` (the operations claim C1 ranges over). -/
def Op.isInsRem : Op → Bool
  | Op.insert _ _ => true
  | Op.remove _ => true
  | _ => false

namespace Tree

/-- Every stored interval satisfies the (Boolean) predicate. -/
def allPairs (p : Interval → Bool) : Tree → Bool
  | nil => true
  | node iv _ l r _ => p iv && allPairs p l && allPairs p r

/-- The search ordering on `low` that the code maintains: every `low` in the
left subtree is at most the node's `low`, every `low` in the right subtree is
at least it.  (Insertion sends equal lows right, but a later rotation can move
an equal low to the left side, so only this weak form is invariant.) -/
def bst : Tree → Bool
  | nil => true
  | node iv _ l r _ =>
    allPairs (fun j => j.low ≤ iv.low) l && allPairs (fun j => iv.low ≤ j.low) r &&
      bst l && bst r

/-- The augmentation invariant as maintained by `UpdateMax`: each node's `max`
field equals `max(own high, left.max if present, right.max if present)`. -/
def maxInv : Tree → Bool
  | nil => true
  | node iv m l r _ => (m == computeMax iv l r) && maxInv l && maxInv r

/-- Maximum `high` over the node's own interval and all of its descendants. -/
def subtreeMaxHigh (iv : Interval) (l r : Tree) : Int :=
  ((pairs l ++ pairs r).map (fun p => p.1.high)).foldr max iv.high

/-- The augmentation invariant stated over descendants: each node's `max` field
equals the maximum `high` over the node's own interval and all descendants. -/
def maxCorrect : Tree → Bool
  | nil => true
  | node iv m l r _ => (m == subtreeMaxHigh iv l r) && maxCorrect l && maxCorrect r

/-- The AVL balance invariant: `|Height(left) - Height(right)| ≤ 1` at every node. -/
def avl : Tree → Bool
  | nil => true
  | node _ _ l r _ =>
    decide (((Height l : Int) - (Height r : Int)).natAbs ≤ 1) && avl l && avl r

/-- Some stored node's `low` equals `k`. -/
def hasLow (t : Tree) (k : Int) : Bool :=
  (pairs t).any (fun p => p.1.low == k)

end Tree

/-- The guard under which one public call keeps `size` in step with the node
count: a `Remove` (also the one inside `Update`) whose point-probe succeeds
must have some stored node whose `low` equals the argument's `low`. -/
def sizeGuard (s : IntervalTree) : Op → Bool
  | Op.remove i => !(Tree.Contains s.Root i.low) || Tree.hasLow s.Root i.low
  | Op.update oldI _ _ => !(Tree.Contains s.Root oldI.low) || Tree.hasLow s.Root oldI.low
  | _ => true

/-- The `sizeGuard` holds at every step of the run. -/
def guardedRun : IntervalTree → List Op → Bool
  | _, [] => true
  | s, op :: ops =>
    sizeGuard s op &&
      match applyOp s op with
      | none => true
      | some s2 => guardedRun s2 ops

/-- The overlap predicate of the spec's query table:
`interval.low ≤ hi ∧ interval.high ≥ lo`. -/
def overlapPred (lo hi : Int) (q : Interval × Payload) : Bool :=
  decide (q.1.low ≤ hi) && decide (lo ≤ q.1.high)

/-- The point-containment predicate: `interval.low ≤ v ≤ interval.high`. -/
def containPred (v : Int) (q : Interval × Payload) : Bool :=
  decide (q.1.low ≤ v) && decide (v ≤ q.1.high)

/-- The range predicate of `FindByMinMax`:
`interval.high ≥ min ∧ interval.low ≤ max`. -/
def minMaxPred (lo hi : Int) (q : Interval × Payload) : Bool :=
  decide (lo ≤ q.1.high) && decide (q.1.low ≤ hi)

/-- The `high` values stored in a subtree. -/
def Tree.highs (t : Tree) : List Int :=
  t.pairs.map (fun q => q.1.high)

/-- Concatenation of rendered fragments (the spec-side view of the stream
concatenation performed by the in-order `ToString`). -/
def concatStrs : List String → String
  | [] => ""
  | s :: rest => s ++ concatStrs rest

/-- The spec's section-8 scenario: insert `(1,3)`, `(5,8)`, `(2,6)`, `(15,20)`. -/
def exOps4 : List Op :=
  [Op.insert ⟨1, 3⟩ none, Op.insert ⟨5, 8⟩ none,
   Op.insert ⟨2, 6⟩ none, Op.insert ⟨15, 20⟩ none]

/-- The state reached by `exOps4`. -/
def exTree4 : IntervalTree :=
  ⟨Tree.node ⟨2, 6⟩ 20
    (Tree.node ⟨1, 3⟩ 3 Tree.nil Tree.nil none)
    (Tree.node ⟨5, 8⟩ 20 Tree.nil
      (Tree.node ⟨15, 20⟩ 20 Tree.nil Tree.nil none) none) none, 4⟩

/-- Insert `(1,10)`, then remove `(5,7)`: the probe `Contains(5)` succeeds (the
stored interval covers the point 5) but no node has `low = 5`, so `size` is
decremented while no node is deleted. -/
def c1Ops : List Op := [Op.insert ⟨1, 10⟩ none, Op.remove ⟨5, 7⟩]

/-- The state reached by `c1Ops`: one reachable node, `size = 0`. -/
def c1State : IntervalTree := ⟨Tree.node ⟨1, 10⟩ 10 Tree.nil Tree.nil none, 0⟩

/-- A guarded insert/remove run: the removed interval's `low` is stored. -/
def c1wOps : List Op :=
  [Op.insert ⟨1, 3⟩ none, Op.insert ⟨5, 8⟩ none, Op.remove ⟨1, 2⟩]

/-- The state reached by `c1wOps`. -/
def c1wState : IntervalTree := ⟨Tree.node ⟨5, 8⟩ 8 Tree.nil Tree.nil none, 1⟩

/-- A run exercising all four public mutators. -/
def c2Ops : List Op :=
  [Op.insert ⟨1, 3⟩ none, Op.insert ⟨5, 8⟩ none,
   Op.update ⟨1, 3⟩ ⟨2, 6⟩ none, Op.remove ⟨5, 8⟩,
   Op.clear, Op.insert ⟨15, 20⟩ none]

/-- Insert `(1,3)` then `(5,8)` — the failing input for the range query. -/
def c3Ops : List Op := [Op.insert ⟨1, 3⟩ none, Op.insert ⟨5, 8⟩ none]

/-- The state reached by `c3Ops`. -/
def c3State : IntervalTree :=
  ⟨Tree.node ⟨1, 3⟩ 8 Tree.nil (Tree.node ⟨5, 8⟩ 8 Tree.nil Tree.nil none) none, 2⟩

/-- Six valid inserts in which the low key 20 repeats: the sixth insertion
triggers the `balance < -1` dispatch with `i.low == right->interval.low`,
taking the rotate-right-then-left branch although the insertion went into the
right child's right subtree. -/
def c5Ops : List Op :=
  [Op.insert ⟨10, 10⟩ none, Op.insert ⟨5, 5⟩ none, Op.insert ⟨20, 20⟩ none,
   Op.insert ⟨15, 15⟩ none, Op.insert ⟨25, 25⟩ none, Op.insert ⟨20, 20⟩ none]

/-- The state reached by `c5Ops`: the node with interval `(20,20)` on the right
spine has a null left child and a right subtree of height 2. -/
def c5State : IntervalTree :=
  ⟨Tree.node ⟨15, 15⟩ 25
    (Tree.node ⟨10, 10⟩ 10
      (Tree.node ⟨5, 5⟩ 5 Tree.nil Tree.nil none) Tree.nil none)
    (Tree.node ⟨20, 20⟩ 25 Tree.nil
      (Tree.node ⟨25, 25⟩ 25
        (Tree.node ⟨20, 20⟩ 20 Tree.nil Tree.nil none) Tree.nil none) none) none, 6⟩

/-- Three inserts of the same valid interval `(5,5)`: the third triggers
`RotateRight` on a node whose left child is null. -/
def c6Ops : List Op :=
  [Op.insert ⟨5, 5⟩ none, Op.insert ⟨5, 5⟩ none, Op.insert ⟨5, 5⟩ none]

/-- The state reached by `c2Ops`. -/
def c2State : IntervalTree := ⟨Tree.node ⟨15, 20⟩ 20 Tree.nil Tree.nil none, 1⟩

/-- An operation that inserts an interval satisfying `low ≤ high`. -/
def Op.isValidInsert : Op → Bool
  | Op.insert i _ => decide (i.low ≤ i.high)
  | _ => false

/-! ### Basic lemmas about the verification-side views -/

namespace Tree

theorem allPairs_iff (p : Interval → Bool) (t : Tree) :
    allPairs p t = true ↔ ∀ q ∈ pairs t, p q.1 = true := by
  induction t with
  | nil => simp [allPairs, pairs]
  | node iv m l r d ihl ihr =>
    simp only [allPairs, pairs, Bool.and_eq_true, ihl, ihr, List.mem_append, List.mem_cons]
    constructor
    · rintro ⟨⟨hp, hl⟩, hr⟩ q hq
      rcases hq with h | h | h
      · exact hl q h
      · simpa [h]
      · exact hr q h
    · intro h
      refine ⟨⟨h (iv, d) (Or.inr (Or.inl rfl)), fun q hq => h q (Or.inl hq)⟩,
        fun q hq => h q (Or.inr (Or.inr hq))⟩

theorem mem_pairs_node {q : Interval × Payload} {iv : Interval} {m : Int}
    {l r : Tree} {d : Payload} :
    q ∈ pairs (Tree.node iv m l r d) ↔ q ∈ pairs l ∨ q = (iv, d) ∨ q ∈ pairs r := by
  simp [pairs]

theorem allPairs_mono {p q : Interval → Bool} {t : Tree}
    (hpq : ∀ x, p x = true → q x = true) (h : allPairs p t = true) :
    allPairs q t = true := by
  rw [allPairs_iff] at h ⊢
  exact fun x hx => hpq x.1 (h x hx)

theorem countNodes_eq_length (t : Tree) : countNodes t = (pairs t).length := by
  induction t with
  | nil => simp [countNodes, pairs]
  | node iv m l r d ihl ihr => simp [countNodes, pairs, ihl, ihr]; omega

theorem pairs_UpdateMax (t : Tree) : pairs (UpdateMax t) = pairs t := by
  cases t <;> simp [UpdateMax, pairs]

theorem hasLow_iff (t : Tree) (k : Int) :
    hasLow t k = true ↔ ∃ q ∈ pairs t, q.1.low = k := by
  simp [hasLow, List.any_eq_true]

end Tree

/-! ### Folded maxima -/

theorem le_foldr_max (a : Int) (xs : List Int) : a ≤ xs.foldr max a := by
  induction xs with
  | nil => simp
  | cons x xs ih => simpa using Or.inr ih

theorem mem_le_foldr_max {x : Int} {xs : List Int} (h : x ∈ xs) (a : Int) :
    x ≤ xs.foldr max a := by
  induction xs with
  | nil => cases h
  | cons y ys ih =>
    rcases List.mem_cons.mp h with rfl | h
    · simp
    · simpa using Or.inr (ih h)

theorem foldr_max_mem (a : Int) (xs : List Int) :
    xs.foldr max a = a ∨ xs.foldr max a ∈ xs := by
  induction xs with
  | nil => exact Or.inl rfl
  | cons x xs ih =>
    rcases le_total x (xs.foldr max a) with h | h
    · rw [List.foldr_cons, max_eq_right h]
      rcases ih with h2 | h2
      · exact Or.inl h2
      · exact Or.inr (List.mem_cons_of_mem _ h2)
    · rw [List.foldr_cons, max_eq_left h]
      exact Or.inr (List.mem_cons_self _ _)

theorem foldr_max_comm (x a : Int) (xs : List Int) :
    xs.foldr max (max x a) = max x (xs.foldr max a) := by
  induction xs with
  | nil => simp
  | cons y ys ih => simp [ih, max_left_comm]

theorem foldr_max_exchange (a : Int) (xs ys : List Int) :
    xs.foldr max (ys.foldr max a) = ys.foldr max (xs.foldr max a) := by
  induction xs with
  | nil => simp
  | cons x xs ih => simp [ih, foldr_max_comm]

/-! ### The augmentation invariant -/

namespace Tree

theorem bst_node_iff {iv : Interval} {m : Int} {l r : Tree} {d : Payload} :
    bst (Tree.node iv m l r d) = true ↔
      (∀ q ∈ pairs l, q.1.low ≤ iv.low) ∧ (∀ q ∈ pairs r, iv.low ≤ q.1.low) ∧
        bst l = true ∧ bst r = true := by
  simp [bst, allPairs_iff, and_assoc]

theorem maxInv_node_iff {iv : Interval} {m : Int} {l r : Tree} {d : Payload} :
    maxInv (Tree.node iv m l r d) = true ↔
      m = computeMax iv l r ∧ maxInv l = true ∧ maxInv r = true := by
  simp [maxInv, and_assoc]

theorem highs_node (iv : Interval) (m : Int) (l r : Tree) (d : Payload) :
    highs (Tree.node iv m l r d) = highs l ++ iv.high :: highs r := by
  simp [highs, pairs]

theorem maxInv_fold_highs :
    ∀ (t : Tree), maxInv t = true → ∀ b : Int,
      (highs t).foldr max b = if t.isNil then b else max t.maxField b := by
  intro t
  induction t with
  | nil => intro _ b; simp [highs, pairs, isNil]
  | node iv m l r d ihl ihr =>
    intro h b
    rw [maxInv_node_iff] at h
    obtain ⟨hm, hl, hr⟩ := h
    rw [highs_node, List.foldr_append, List.foldr_cons, ihr hr b, ihl hl]
    subst hm
    cases l <;> cases r <;>
      simp [isNil, maxField, computeMax, max_assoc, max_comm, max_left_comm]

theorem maxInv_high_le {t : Tree} (h : maxInv t = true) {q : Interval × Payload}
    (hq : q ∈ pairs t) : q.1.high ≤ t.maxField := by
  cases t with
  | nil => simp [pairs] at hq
  | node iv m l r d =>
    have hmem : q.1.high ∈ highs (Tree.node iv m l r d) :=
      List.mem_map_of_mem _ hq
    have h2 := mem_le_foldr_max hmem (Tree.node iv m l r d).maxField
    rw [maxInv_fold_highs _ h] at h2
    simpa [isNil] using h2

theorem maxInv_exists_high {iv : Interval} {m : Int} {l r : Tree} {d : Payload}
    (h : maxInv (Tree.node iv m l r d) = true) :
    ∃ q ∈ pairs (Tree.node iv m l r d), m ≤ q.1.high := by
  have hroot : (iv, d) ∈ pairs (Tree.node iv m l r d) := by
    simp [pairs]
  have hhigh : iv.high ≤ m := maxInv_high_le h hroot
  have hfold := maxInv_fold_highs _ h iv.high
  rw [if_neg (by simp [isNil])] at hfold
  simp only [maxField] at hfold
  rw [max_eq_left hhigh] at hfold
  rcases foldr_max_mem iv.high (highs (Tree.node iv m l r d)) with h2 | h2
  · rw [hfold] at h2
    exact ⟨(iv, d), hroot, le_of_eq h2⟩
  · rw [hfold] at h2
    obtain ⟨q, hq, hq2⟩ := List.mem_map.mp h2
    exact ⟨q, hq, le_of_eq hq2.symm⟩

theorem subtreeMaxHigh_eq (iv : Interval) (l r : Tree) :
    subtreeMaxHigh iv l r = (highs l).foldr max ((highs r).foldr max iv.high) := by
  simp [subtreeMaxHigh, highs, List.foldr_append]

theorem maxInv_maxCorrect : ∀ t : Tree, maxInv t = true → maxCorrect t = true := by
  intro t
  induction t with
  | nil => simp [maxCorrect]
  | node iv m l r d ihl ihr =>
    intro h
    rw [maxInv_node_iff] at h
    obtain ⟨hm, hl, hr⟩ := h
    simp only [maxCorrect, Bool.and_eq_true, beq_iff_eq]
    refine ⟨⟨?_, ihl hl⟩, ihr hr⟩
    rw [subtreeMaxHigh_eq, maxInv_fold_highs l hl, maxInv_fold_highs r hr]
    subst hm
    cases l <;> cases r <;>
      simp [isNil, maxField, computeMax, max_assoc, max_comm, max_left_comm]

/-! ### Rotations -/

theorem pairs_RotateRight {t t2 : Tree} (h : RotateRight t = some t2) :
    pairs t2 = pairs t := by
  cases t with
  | nil => simp [RotateRight] at h
  | node iv m l r d =>
    cases l with
    | nil => simp [RotateRight] at h
    | node liv lm ll lr ld =>
      simp only [RotateRight, Option.some.injEq] at h
      subst h
      simp [pairs_UpdateMax, pairs, List.append_assoc]

theorem pairs_RotateLeft {t t2 : Tree} (h : RotateLeft t = some t2) :
    pairs t2 = pairs t := by
  cases t with
  | nil => simp [RotateLeft] at h
  | node iv m l r d =>
    cases r with
    | nil => simp [RotateLeft] at h
    | node riv rm rl rr rd =>
      simp only [RotateLeft, Option.some.injEq] at h
      subst h
      simp [pairs_UpdateMax, pairs, List.append_assoc]

theorem maxInv_RotateRight {iv : Interval} {m : Int} {l r t2 : Tree} {d : Payload}
    (h : RotateRight (Tree.node iv m l r d) = some t2)
    (hl : maxInv l = true) (hr : maxInv r = true) : maxInv t2 = true := by
  cases l with
  | nil => simp [RotateRight] at h
  | node liv lm ll lr ld =>
    simp only [RotateRight, Option.some.injEq] at h
    subst h
    rw [maxInv_node_iff] at hl
    obtain ⟨_, hll, hlr⟩ := hl
    simp [UpdateMax, maxInv_node_iff, hll, hlr, hr]

theorem maxInv_RotateLeft {iv : Interval} {m : Int} {l r t2 : Tree} {d : Payload}
    (h : RotateLeft (Tree.node iv m l r d) = some t2)
    (hl : maxInv l = true) (hr : maxInv r = true) : maxInv t2 = true := by
  cases r with
  | nil => simp [RotateLeft] at h
  | node riv rm rl rr rd =>
    simp only [RotateLeft, Option.some.injEq] at h
    subst h
    rw [maxInv_node_iff] at hr
    obtain ⟨_, hrl, hrr⟩ := hr
    simp [UpdateMax, maxInv_node_iff, hl, hrl, hrr]

theorem bst_RotateRight {t t2 : Tree} (h : RotateRight t = some t2)
    (hb : bst t = true) : bst t2 = true := by
  cases t with
  | nil => simp [RotateRight] at h
  | node iv m l r d =>
    cases l with
    | nil => simp [RotateRight] at h
    | node liv lm ll lr ld =>
      simp only [RotateRight, Option.some.injEq] at h
      subst h
      rw [bst_node_iff] at hb
      obtain ⟨hbl, hbr, hl, hr⟩ := hb
      rw [bst_node_iff] at hl
      obtain ⟨hbll, hblr, hll, hlr⟩ := hl
      have hliv : liv.low ≤ iv.low := hbl (liv, ld) (by simp [pairs])
      simp only [UpdateMax, bst_node_iff, pairs_UpdateMax]
      refine ⟨hbll, ?_, hll, ?_⟩
      · intro q hq
        simp only [pairs, List.mem_append, List.mem_cons] at hq
        rcases hq with hq | hq | hq
        · exact hblr q hq
        · rw [hq]; exact hliv
        · exact le_trans hliv (hbr q hq)
      · exact ⟨fun q hq => hbl q (by simp [pairs, hq]), hbr, hlr, hr⟩

theorem bst_RotateLeft {t t2 : Tree} (h : RotateLeft t = some t2)
    (hb : bst t = true) : bst t2 = true := by
  cases t with
  | nil => simp [RotateLeft] at h
  | node iv m l r d =>
    cases r with
    | nil => simp [RotateLeft] at h
    | node riv rm rl rr rd =>
      simp only [RotateLeft, Option.some.injEq] at h
      subst h
      rw [bst_node_iff] at hb
      obtain ⟨hbl, hbr, hl, hr⟩ := hb
      rw [bst_node_iff] at hr
      obtain ⟨hbrl, hbrr, hrl, hrr⟩ := hr
      have hriv : iv.low ≤ riv.low := hbr (riv, rd) (by simp [pairs])
      simp only [UpdateMax, bst_node_iff, pairs_UpdateMax]
      refine ⟨?_, hbrr, ?_, hrr⟩
      · intro q hq
        simp only [pairs, List.mem_append, List.mem_cons] at hq
        rcases hq with hq | hq | hq
        · exact le_trans (hbl q hq) hriv
        · rw [hq]; exact hriv
        · exact hbrl q hq
      · exact ⟨hbl, fun q hq => hbr q (by simp [pairs, hq]), hl, hrl⟩

end Tree

/-! ### Insertion -/

namespace Tree

theorem bst_UpdateMax (t : Tree) : bst (UpdateMax t) = bst t := by
  cases t <;> simp [UpdateMax, bst]

theorem maxInv_UpdateMax_node {iv : Interval} {m : Int} {l r : Tree} {d : Payload}
    (hl : maxInv l = true) (hr : maxInv r = true) :
    maxInv (UpdateMax (Tree.node iv m l r d)) = true := by
  simp [UpdateMax, maxInv_node_iff, hl, hr]

theorem rebalance_cases {n t2 : Tree} {i : Interval} (h : rebalance n i = some t2) :
    t2 = n ∨ RotateRight n = some t2 ∨ RotateLeft n = some t2 ∨
      (∃ iv m l r d l2, n = Tree.node iv m l r d ∧ RotateLeft l = some l2 ∧
        RotateRight (Tree.node iv m l2 r d) = some t2) ∨
      (∃ iv m l r d r2, n = Tree.node iv m l r d ∧ RotateRight r = some r2 ∧
        RotateLeft (Tree.node iv m l r2 d) = some t2) := by
  cases n with
  | nil =>
    simp [rebalance, GetBalance] at h
    exact Or.inl h.symm
  | node iv m l r d =>
    by_cases h1 : 1 < GetBalance (Tree.node iv m l r d)
    · cases l with
      | nil =>
        simp only [rebalance] at h
        rw [if_pos h1] at h
        simp at h
      | node liv lm ll lr ld =>
        simp only [rebalance] at h
        rw [if_pos h1] at h
        by_cases h2 : i.low < liv.low
        · rw [if_pos h2] at h
          exact Or.inr (Or.inl h)
        · rw [if_neg h2] at h
          cases heq : RotateLeft (Tree.node liv lm ll lr ld) with
          | none => rw [heq] at h; simp at h
          | some l2 =>
            rw [heq] at h
            exact Or.inr (Or.inr (Or.inr (Or.inl
              ⟨iv, m, _, r, d, l2, rfl, heq, h⟩)))
    · by_cases h2 : GetBalance (Tree.node iv m l r d) < -1
      · cases r with
        | nil =>
          simp only [rebalance] at h
          rw [if_neg h1, if_pos h2] at h
          simp at h
        | node riv rm rl rr rd =>
          simp only [rebalance] at h
          rw [if_neg h1, if_pos h2] at h
          by_cases h3 : riv.low < i.low
          · rw [if_pos h3] at h
            exact Or.inr (Or.inr (Or.inl h))
          · rw [if_neg h3] at h
            cases heq : RotateRight (Tree.node riv rm rl rr rd) with
            | none => rw [heq] at h; simp at h
            | some r2 =>
              rw [heq] at h
              exact Or.inr (Or.inr (Or.inr (Or.inr
                ⟨iv, m, l, _, d, r2, rfl, heq, h⟩)))
      · simp only [rebalance] at h
        rw [if_neg h1, if_neg h2] at h
        cases h
        exact Or.inl rfl
theorem rebalance_pairs {n t2 : Tree} {i : Interval} (h : rebalance n i = some t2) :
    pairs t2 = pairs n := by
  rcases rebalance_cases h with h2 | h2 | h2 | h2 | h2
  · rw [h2]
  · exact pairs_RotateRight h2
  · exact pairs_RotateLeft h2
  · obtain ⟨iv, m, l, r, d, l2, rfl, heq, h2⟩ := h2
    rw [pairs_RotateRight h2]
    simp [pairs, pairs_RotateLeft heq]
  · obtain ⟨iv, m, l, r, d, r2, rfl, heq, h2⟩ := h2
    rw [pairs_RotateLeft h2]
    simp [pairs, pairs_RotateRight heq]

theorem rebalance_bst {n t2 : Tree} {i : Interval} (h : rebalance n i = some t2)
    (hb : bst n = true) : bst t2 = true := by
  rcases rebalance_cases h with h2 | h2 | h2 | h2 | h2
  · rw [h2]; exact hb
  · exact bst_RotateRight h2 hb
  · exact bst_RotateLeft h2 hb
  · obtain ⟨iv, m, l, r, d, l2, rfl, heq, h2⟩ := h2
    apply bst_RotateRight h2
    rw [bst_node_iff] at hb ⊢
    obtain ⟨hbl, hbr, hl, hr⟩ := hb
    exact ⟨fun q hq => hbl q (pairs_RotateLeft heq ▸ hq), hbr,
      bst_RotateLeft heq hl, hr⟩
  · obtain ⟨iv, m, l, r, d, r2, rfl, heq, h2⟩ := h2
    apply bst_RotateLeft h2
    rw [bst_node_iff] at hb ⊢
    obtain ⟨hbl, hbr, hl, hr⟩ := hb
    exact ⟨hbl, fun q hq => hbr q (pairs_RotateRight heq ▸ hq), hl,
      bst_RotateRight heq hr⟩

theorem maxInv_of_node {iv : Interval} {m : Int} {l r : Tree} {d : Payload}
    (h : maxInv (Tree.node iv m l r d) = true) : maxInv l = true ∧ maxInv r = true := by
  rw [maxInv_node_iff] at h
  exact ⟨h.2.1, h.2.2⟩

theorem rebalance_maxInv {n t2 : Tree} {i : Interval} (h : rebalance n i = some t2)
    (hm : maxInv n = true) : maxInv t2 = true := by
  rcases rebalance_cases h with h2 | h2 | h2 | h2 | h2
  · rw [h2]; exact hm
  · cases n with
    | nil => simp [RotateRight] at h2
    | node iv m l r d =>
      obtain ⟨hl, hr⟩ := maxInv_of_node hm
      exact maxInv_RotateRight h2 hl hr
  · cases n with
    | nil => simp [RotateLeft] at h2
    | node iv m l r d =>
      obtain ⟨hl, hr⟩ := maxInv_of_node hm
      exact maxInv_RotateLeft h2 hl hr
  · obtain ⟨iv, m, l, r, d, l2, rfl, heq, h2⟩ := h2
    obtain ⟨hl, hr⟩ := maxInv_of_node hm
    cases l with
    | nil => simp [RotateLeft] at heq
    | node liv lm ll lr ld =>
      obtain ⟨hll, hlr⟩ := maxInv_of_node hl
      exact maxInv_RotateRight h2 (maxInv_RotateLeft heq hll hlr) hr
  · obtain ⟨iv, m, l, r, d, r2, rfl, heq, h2⟩ := h2
    obtain ⟨hl, hr⟩ := maxInv_of_node hm
    cases r with
    | nil => simp [RotateRight] at heq
    | node riv rm rl rr rd =>
      obtain ⟨hrl, hrr⟩ := maxInv_of_node hr
      exact maxInv_RotateLeft h2 hl (maxInv_RotateRight heq hrl hrr)

theorem Insert_pairs :
    ∀ (t : Tree) {t2 : Tree} (i : Interval) (d : Payload),
      Insert t i d = some t2 → (pairs t2).Perm ((i, d) :: pairs t) := by
  intro t
  induction t with
  | nil =>
    intro t2 i d h
    simp only [Insert, Option.some.injEq] at h
    subst h
    simp [pairs]
  | node iv m l r d0 ihl ihr =>
    intro t2 i d h
    simp only [Insert] at h
    by_cases hc : i.low < iv.low
    · rw [if_pos hc] at h
      cases hins : Insert l i d with
      | none => rw [hins] at h; cases h
      | some l2 =>
        rw [hins] at h
        rw [rebalance_pairs h, pairs_UpdateMax]
        simp only [pairs]
        simpa using (ihl i d hins).append_right ((iv, d0) :: pairs r)
    · rw [if_neg hc] at h
      cases hins : Insert r i d with
      | none => rw [hins] at h; cases h
      | some r2 =>
        rw [hins] at h
        rw [rebalance_pairs h, pairs_UpdateMax]
        simp only [pairs]
        have h1 := (ihr i d hins).cons (iv, d0)
        have h2 := h1.append_left (pairs l)
        refine h2.trans ?_
        have h3 : ((iv, d0) :: (i, d) :: pairs r).Perm ((i, d) :: (iv, d0) :: pairs r) :=
          List.Perm.swap (i, d) (iv, d0) (pairs r)
        refine (h3.append_left (pairs l)).trans ?_
        exact List.perm_middle

theorem Insert_bst :
    ∀ (t : Tree) {t2 : Tree} (i : Interval) (d : Payload),
      Insert t i d = some t2 → bst t = true → bst t2 = true := by
  intro t
  induction t with
  | nil =>
    intro t2 i d h _
    simp only [Insert, Option.some.injEq] at h
    subst h
    simp [bst, allPairs]
  | node iv m l r d0 ihl ihr =>
    intro t2 i d h hb
    rw [bst_node_iff] at hb
    obtain ⟨hbl, hbr, hl, hr⟩ := hb
    simp only [Insert] at h
    by_cases hc : i.low < iv.low
    · rw [if_pos hc] at h
      cases hins : Insert l i d with
      | none => rw [hins] at h; cases h
      | some l2 =>
        rw [hins] at h
        apply rebalance_bst h
        rw [bst_UpdateMax, bst_node_iff]
        refine ⟨?_, hbr, ihl i d hins hl, hr⟩
        intro q hq
        cases List.mem_cons.mp ((Insert_pairs l i d hins).mem_iff.mp hq) with
        | inl hq2 => rw [hq2]; exact le_of_lt hc
        | inr hq2 => exact hbl q hq2
    · rw [if_neg hc] at h
      cases hins : Insert r i d with
      | none => rw [hins] at h; cases h
      | some r2 =>
        rw [hins] at h
        apply rebalance_bst h
        rw [bst_UpdateMax, bst_node_iff]
        refine ⟨hbl, ?_, hl, ihr i d hins hr⟩
        intro q hq
        cases List.mem_cons.mp ((Insert_pairs r i d hins).mem_iff.mp hq) with
        | inl hq2 => rw [hq2]; exact le_of_not_lt hc
        | inr hq2 => exact hbr q hq2

theorem Insert_maxInv :
    ∀ (t : Tree) {t2 : Tree} (i : Interval) (d : Payload),
      Insert t i d = some t2 → maxInv t = true → maxInv t2 = true := by
  intro t
  induction t with
  | nil =>
    intro t2 i d h _
    simp only [Insert, Option.some.injEq] at h
    subst h
    simp [maxInv_node_iff, maxInv, computeMax]
  | node iv m l r d0 ihl ihr =>
    intro t2 i d h hm
    rw [maxInv_node_iff] at hm
    obtain ⟨_, hl, hr⟩ := hm
    simp only [Insert] at h
    by_cases hc : i.low < iv.low
    · rw [if_pos hc] at h
      cases hins : Insert l i d with
      | none => rw [hins] at h; cases h
      | some l2 =>
        rw [hins] at h
        exact rebalance_maxInv h (maxInv_UpdateMax_node (ihl i d hins hl) hr)
    · rw [if_neg hc] at h
      cases hins : Insert r i d with
      | none => rw [hins] at h; cases h
      | some r2 =>
        rw [hins] at h
        exact rebalance_maxInv h (maxInv_UpdateMax_node hl (ihr i d hins hr))

theorem Insert_count {t t2 : Tree} {i : Interval} {d : Payload}
    (h : Insert t i d = some t2) : countNodes t2 = countNodes t + 1 := by
  rw [countNodes_eq_length, countNodes_eq_length, (Insert_pairs t i d h).length_eq]
  simp

end Tree

/-! ### Removal -/

namespace Tree

theorem countNodes_UpdateMax (t : Tree) : countNodes (UpdateMax t) = countNodes t := by
  cases t <;> simp [UpdateMax, countNodes]

theorem isNil_iff {t : Tree} : t.isNil = true ↔ t = Tree.nil := by
  cases t <;> simp [isNil]

theorem hasLow_eq_false {t : Tree} {k : Int} (h : ∀ q ∈ pairs t, q.1.low ≠ k) :
    hasLow t k = false := by
  rw [hasLow, List.any_eq_false]
  intro q hq
  simp [h q hq]

theorem FindMin_mem :
    ∀ {t : Tree} {miv : Interval} {mm : Int} {ml mr : Tree} {md : Payload},
      FindMin t = Tree.node miv mm ml mr md → (miv, md) ∈ pairs t := by
  intro t
  induction t with
  | nil => intro miv mm ml mr md h; simp [FindMin] at h
  | node iv m l r d ihl ihr =>
    intro miv mm ml mr md h
    cases l with
    | nil =>
      simp only [FindMin, Tree.node.injEq] at h
      obtain ⟨h1, _, _, _, h5⟩ := h
      simp [pairs, h1, h5]
    | node liv lm ll lr ld =>
      simp only [FindMin] at h
      exact mem_pairs_node.mpr (Or.inl (ihl h))

theorem FindMin_min :
    ∀ {t : Tree} {miv : Interval} {mm : Int} {ml mr : Tree} {md : Payload},
      FindMin t = Tree.node miv mm ml mr md → bst t = true →
      ∀ q ∈ pairs t, miv.low ≤ q.1.low := by
  intro t
  induction t with
  | nil => intro miv mm ml mr md h; simp [FindMin] at h
  | node iv m l r d ihl ihr =>
    intro miv mm ml mr md h hb
    rw [bst_node_iff] at hb
    obtain ⟨hbl, hbr, hl, hr⟩ := hb
    cases l with
    | nil =>
      simp only [FindMin, Tree.node.injEq] at h
      obtain ⟨h1, _, _, _, _⟩ := h
      subst h1
      intro q hq
      simp only [pairs, List.nil_append, List.mem_cons] at hq
      rcases hq with hq | hq
      · rw [hq]
      · exact hbr q hq
    | node liv lm ll lr ld =>
      simp only [FindMin] at h
      have hmin := ihl h hl
      have hmem := FindMin_mem h
      have hle : miv.low ≤ iv.low := hbl (miv, md) hmem
      intro q hq
      rcases mem_pairs_node.mp hq with hq | hq | hq
      · exact hmin q hq
      · rw [hq]; exact hle
      · exact le_trans hle (hbr q hq)

theorem FindMin_eq_nil : ∀ {t : Tree}, FindMin t = Tree.nil → t = Tree.nil := by
  intro t
  induction t with
  | nil => intro _; rfl
  | node iv m l r d ihl ihr =>
    intro h
    cases l with
    | nil => simp [FindMin] at h
    | node liv lm ll lr ld =>
      simp only [FindMin] at h
      cases ihl h

theorem Remove_pairs_subset :
    ∀ (t : Tree) (i : Interval) (q : Interval × Payload),
      q ∈ pairs (Remove t i) → q ∈ pairs t := by
  intro t
  induction t with
  | nil => intro i q hq; simpa [Remove] using hq
  | node iv m l r d ihl ihr =>
    intro i q hq
    simp only [Remove] at hq
    by_cases h1 : i.low < iv.low
    · rw [if_pos h1, pairs_UpdateMax] at hq
      simp only [pairs, List.mem_append, List.mem_cons] at hq ⊢
      rcases hq with hq | hq | hq
      · exact Or.inl (ihl i q hq)
      · exact Or.inr (Or.inl hq)
      · exact Or.inr (Or.inr hq)
    · rw [if_neg h1] at hq
      by_cases h2 : iv.low < i.low
      · rw [if_pos h2, pairs_UpdateMax] at hq
        simp only [pairs, List.mem_append, List.mem_cons] at hq ⊢
        rcases hq with hq | hq | hq
        · exact Or.inl hq
        · exact Or.inr (Or.inl hq)
        · exact Or.inr (Or.inr (ihr i q hq))
      · rw [if_neg h2] at hq
        by_cases h3 : l.isNil = true
        · rw [if_pos h3] at hq
          simp only [pairs, List.mem_append, List.mem_cons]
          exact Or.inr (Or.inr hq)
        · rw [if_neg h3] at hq
          by_cases h4 : r.isNil = true
          · rw [if_pos h4] at hq
            simp only [pairs, List.mem_append, List.mem_cons]
            exact Or.inl hq
          · rw [if_neg h4] at hq
            split at hq
            · simp [pairs] at hq
            · rename_i miv mm ml mr md heq
              rw [pairs_UpdateMax] at hq
              simp only [pairs, List.mem_append, List.mem_cons] at hq ⊢
              rcases hq with hq | hq | hq
              · exact Or.inl hq
              · rw [hq]
                exact Or.inr (Or.inr (FindMin_mem heq))
              · exact Or.inr (Or.inr (ihr miv q hq))

theorem Remove_bst :
    ∀ (t : Tree) (i : Interval), bst t = true → bst (Remove t i) = true := by
  intro t
  induction t with
  | nil => intro i _; simp [Remove, bst]
  | node iv m l r d ihl ihr =>
    intro i hb
    rw [bst_node_iff] at hb
    obtain ⟨hbl, hbr, hl, hr⟩ := hb
    simp only [Remove]
    by_cases h1 : i.low < iv.low
    · rw [if_pos h1, bst_UpdateMax, bst_node_iff]
      exact ⟨fun q hq => hbl q (Remove_pairs_subset l i q hq), hbr, ihl i hl, hr⟩
    · rw [if_neg h1]
      by_cases h2 : iv.low < i.low
      · rw [if_pos h2, bst_UpdateMax, bst_node_iff]
        exact ⟨hbl, fun q hq => hbr q (Remove_pairs_subset r i q hq), hl, ihr i hr⟩
      · rw [if_neg h2]
        by_cases h3 : l.isNil = true
        · rw [if_pos h3]; exact hr
        · rw [if_neg h3]
          by_cases h4 : r.isNil = true
          · rw [if_pos h4]; exact hl
          · rw [if_neg h4]
            split
            · simp [bst]
            · rename_i miv mm ml mr md heq
              rw [bst_UpdateMax, bst_node_iff]
              have hle : iv.low ≤ miv.low := hbr (miv, md) (FindMin_mem heq)
              refine ⟨fun q hq => le_trans (hbl q hq) hle, ?_, hl, ihr miv hr⟩
              intro q hq
              exact FindMin_min heq hr q (Remove_pairs_subset r miv q hq)

theorem Remove_maxInv :
    ∀ (t : Tree) (i : Interval), maxInv t = true → maxInv (Remove t i) = true := by
  intro t
  induction t with
  | nil => intro i _; simp [Remove, maxInv]
  | node iv m l r d ihl ihr =>
    intro i hm
    obtain ⟨hl, hr⟩ := maxInv_of_node hm
    simp only [Remove]
    by_cases h1 : i.low < iv.low
    · rw [if_pos h1]
      exact maxInv_UpdateMax_node (ihl i hl) hr
    · rw [if_neg h1]
      by_cases h2 : iv.low < i.low
      · rw [if_pos h2]
        exact maxInv_UpdateMax_node hl (ihr i hr)
      · rw [if_neg h2]
        by_cases h3 : l.isNil = true
        · rw [if_pos h3]; exact hr
        · rw [if_neg h3]
          by_cases h4 : r.isNil = true
          · rw [if_pos h4]; exact hl
          · rw [if_neg h4]
            split
            · simp [maxInv]
            · rename_i miv mm ml mr md heq
              exact maxInv_UpdateMax_node hl (ihr miv hr)

theorem Remove_count :
    ∀ (t : Tree) (i : Interval), bst t = true →
      (hasLow t i.low = true → countNodes (Remove t i) + 1 = countNodes t) ∧
      (hasLow t i.low = false → countNodes (Remove t i) = countNodes t) := by
  intro t
  induction t with
  | nil =>
    intro i _
    constructor
    · intro h; simp [hasLow, pairs] at h
    · intro _; simp [Remove]
  | node iv m l r d ihl ihr =>
    intro i hb
    rw [bst_node_iff] at hb
    obtain ⟨hbl, hbr, hl, hr⟩ := hb
    have hmemlow : hasLow (Tree.node iv m l r d) i.low =
        (hasLow l i.low || (iv.low == i.low) || hasLow r i.low) := by
      simp [hasLow, pairs, List.any_append, Bool.or_assoc, Bool.or_comm, Bool.or_left_comm]
    by_cases h1 : i.low < iv.low
    · have hroot : (iv.low == i.low) = false := by
        simp only [beq_eq_false_iff_ne, ne_eq]
        intro hcontra
        rw [hcontra] at h1
        exact lt_irrefl _ h1
      have hrside : hasLow r i.low = false := by
        apply hasLow_eq_false
        intro q hq
        have := hbr q hq
        intro hcontra
        rw [hcontra] at this
        exact absurd (lt_of_le_of_lt this h1) (lt_irrefl _)
      rw [hmemlow, hroot, hrside]
      simp only [Bool.or_false]
      simp only [Remove, if_pos h1, countNodes_UpdateMax, countNodes]
      constructor
      · intro hmem
        have := (ihl i hl).1 hmem
        omega
      · intro hmem
        have := (ihl i hl).2 hmem
        omega
    · by_cases h2 : iv.low < i.low
      · have hroot : (iv.low == i.low) = false := by
          simp only [beq_eq_false_iff_ne, ne_eq]
          intro hcontra
          rw [hcontra] at h2
          exact lt_irrefl _ h2
        have hlside : hasLow l i.low = false := by
          apply hasLow_eq_false
          intro q hq
          have := hbl q hq
          intro hcontra
          rw [hcontra] at this
          exact absurd (lt_of_le_of_lt this h2) (lt_irrefl _)
        rw [hmemlow, hroot, hlside]
        simp only [Bool.false_or]
        simp only [Remove, if_neg h1, if_pos h2, countNodes_UpdateMax, countNodes]
        constructor
        · intro hmem
          have := (ihr i hr).1 hmem
          omega
        · intro hmem
          have := (ihr i hr).2 hmem
          omega
      · have hiv : iv.low = i.low := le_antisymm (le_of_not_lt h1) (le_of_not_lt h2)
        have hmem : hasLow (Tree.node iv m l r d) i.low = true := by
          rw [hasLow_iff]
          exact ⟨(iv, d), by simp [pairs], hiv⟩
        rw [hmem]
        constructor
        · intro _
          simp only [Remove, if_neg h1, if_neg h2]
          by_cases h3 : l.isNil = true
          · rw [if_pos h3]
            rw [isNil_iff] at h3
            subst h3
            simp [countNodes]
          · rw [if_neg h3]
            by_cases h4 : r.isNil = true
            · rw [if_pos h4]
              rw [isNil_iff] at h4
              subst h4
              simp [countNodes]
            · rw [if_neg h4]
              split
              · rename_i heq
                exact absurd (isNil_iff.mpr (FindMin_eq_nil heq)) (by simp [h4])
              · rename_i miv mm ml mr md heq
                rw [countNodes_UpdateMax]
                simp only [countNodes]
                have hmemr : hasLow r miv.low = true := by
                  rw [hasLow_iff]
                  exact ⟨(miv, md), FindMin_mem heq, rfl⟩
                have := (ihr miv hr).1 hmemr
                omega
        · intro hcontra
          cases hcontra

end Tree

/-! ### State-level invariants along operation sequences -/

theorem InsertPub_thrown {s s2 : IntervalTree} {i : Interval} {d : Payload}
    (h : IntervalTree.Insert s i d = .thrown s2) : s2 = s := by
  simp only [IntervalTree.Insert] at h
  by_cases hv : i.high < i.low
  · rw [if_pos hv] at h
    injection h with h
    exact h.symm
  · rw [if_neg hv] at h
    cases hins : Tree.Insert s.Root i d with
    | none => rw [hins] at h; simp at h
    | some root2 => rw [hins] at h; simp at h

theorem InsertPub_ok {s s2 : IntervalTree} {i : Interval} {d : Payload}
    (h : IntervalTree.Insert s i d = .ok s2)
    (hb : Tree.bst s.Root = true) (hm : Tree.maxInv s.Root = true) :
    Tree.bst s2.Root = true ∧ Tree.maxInv s2.Root = true ∧
      Tree.countNodes s2.Root = Tree.countNodes s.Root + 1 ∧
      s2.size = (s.size + 1) % W64 ∧ i.low ≤ i.high ∧
      (Tree.pairs s2.Root).Perm ((i, d) :: Tree.pairs s.Root) := by
  simp only [IntervalTree.Insert] at h
  by_cases hv : i.high < i.low
  · rw [if_pos hv] at h
    simp at h
  · rw [if_neg hv] at h
    cases hins : Tree.Insert s.Root i d with
    | none => rw [hins] at h; simp at h
    | some root2 =>
      rw [hins] at h
      injection h with h
      subst h
      exact ⟨Tree.Insert_bst _ i d hins hb, Tree.Insert_maxInv _ i d hins hm,
        Tree.Insert_count hins, rfl, le_of_not_lt hv, Tree.Insert_pairs _ i d hins⟩

theorem wf_RemovePub {s : IntervalTree} (i : Interval)
    (hb : Tree.bst s.Root = true) (hm : Tree.maxInv s.Root = true) :
    Tree.bst (IntervalTree.Remove s i).Root = true ∧
      Tree.maxInv (IntervalTree.Remove s i).Root = true := by
  simp only [IntervalTree.Remove]
  by_cases hc : Tree.Contains s.Root i.low = true
  · rw [if_pos hc]
    exact ⟨Tree.Remove_bst _ _ hb, Tree.Remove_maxInv _ _ hm⟩
  · rw [if_neg hc]
    exact ⟨hb, hm⟩

theorem wf_applyOp {s s2 : IntervalTree} {op : Op} (h : applyOp s op = some s2)
    (hb : Tree.bst s.Root = true) (hm : Tree.maxInv s.Root = true) :
    Tree.bst s2.Root = true ∧ Tree.maxInv s2.Root = true := by
  cases op with
  | insert i d =>
    simp only [applyOp] at h
    cases hins : IntervalTree.Insert s i d with
    | thrown s3 =>
      rw [hins] at h
      injection h with h
      subst h
      rw [InsertPub_thrown hins]
      exact ⟨hb, hm⟩
    | crash => rw [hins] at h; simp at h
    | ok s3 =>
      rw [hins] at h
      injection h with h
      subst h
      obtain ⟨h1, h2, _⟩ := InsertPub_ok hins hb hm
      exact ⟨h1, h2⟩
  | remove i =>
    simp only [applyOp, Option.some.injEq] at h
    subst h
    exact wf_RemovePub i hb hm
  | update oldI newI d =>
    simp only [applyOp, IntervalTree.Update] at h
    obtain ⟨hb1, hm1⟩ := wf_RemovePub oldI hb hm
    cases hins : IntervalTree.Insert (IntervalTree.Remove s oldI) newI d with
    | thrown s3 =>
      rw [hins] at h
      injection h with h
      subst h
      rw [InsertPub_thrown hins]
      exact ⟨hb1, hm1⟩
    | crash => rw [hins] at h; simp at h
    | ok s3 =>
      rw [hins] at h
      injection h with h
      subst h
      obtain ⟨h1, h2, _⟩ := InsertPub_ok hins hb1 hm1
      exact ⟨h1, h2⟩
  | clear =>
    simp only [applyOp, IntervalTree.Clear, Option.some.injEq] at h
    subst h
    simp [Tree.bst, Tree.maxInv]

theorem wf_runOps_from :
    ∀ (ops : List Op) (s s2 : IntervalTree), runOps s ops = some s2 →
      Tree.bst s.Root = true → Tree.maxInv s.Root = true →
      Tree.bst s2.Root = true ∧ Tree.maxInv s2.Root = true := by
  intro ops
  induction ops with
  | nil =>
    intro s s2 h hb hm
    simp only [runOps, Option.some.injEq] at h
    subst h
    exact ⟨hb, hm⟩
  | cons op rest ih =>
    intro s s2 h hb hm
    simp only [runOps] at h
    cases happ : applyOp s op with
    | none => rw [happ] at h; simp at h
    | some s1 =>
      rw [happ] at h
      obtain ⟨hb1, hm1⟩ := wf_applyOp happ hb hm
      exact ih s1 s2 h hb1 hm1

theorem wf_runOps {ops : List Op} {s : IntervalTree}
    (h : runOps IntervalTree.empty ops = some s) :
    Tree.bst s.Root = true ∧ Tree.maxInv s.Root = true := by
  exact wf_runOps_from ops IntervalTree.empty s h (by rfl) (by rfl)

theorem countNodes_pos {t : Tree} {k : Int} (h : Tree.hasLow t k = true) :
    1 ≤ Tree.countNodes t := by
  rw [Tree.hasLow_iff] at h
  obtain ⟨q, hq, _⟩ := h
  rw [Tree.countNodes_eq_length]
  cases hp : Tree.pairs t with
  | nil => rw [hp] at hq; cases hq
  | cons a l => simp

theorem remove_size_step {s : IntervalTree} {i : Interval}
    (hg : (!(Tree.Contains s.Root i.low) || Tree.hasLow s.Root i.low) = true)
    (hb : Tree.bst s.Root = true)
    (hs : s.size = Tree.countNodes s.Root % W64) :
    (IntervalTree.Remove s i).size =
      Tree.countNodes (IntervalTree.Remove s i).Root % W64 := by
  simp only [IntervalTree.Remove]
  by_cases hc : Tree.Contains s.Root i.low = true
  · rw [if_pos hc]
    have hhas : Tree.hasLow s.Root i.low = true := by
      rcases Bool.or_eq_true_iff.mp hg with h2 | h2
      · rw [hc] at h2; cases h2
      · exact h2
    have hcount := (Tree.Remove_count s.Root i hb).1 hhas
    have hpos := countNodes_pos hhas
    show (s.size + (W64 - 1)) % W64 = Tree.countNodes (Tree.Remove s.Root i) % W64
    rw [hs, Nat.mod_add_mod]
    have harith : Tree.countNodes s.Root + (W64 - 1) =
        Tree.countNodes (Tree.Remove s.Root i) + W64 := by
      have hW : 1 ≤ W64 := by norm_num [W64]
      omega
    rw [harith, Nat.add_mod_right]
  · rw [if_neg hc]
    exact hs

theorem guarded_size_step {s s2 : IntervalTree} {op : Op} (h : applyOp s op = some s2)
    (hg : sizeGuard s op = true)
    (hb : Tree.bst s.Root = true) (hm : Tree.maxInv s.Root = true)
    (hs : s.size = Tree.countNodes s.Root % W64) :
    s2.size = Tree.countNodes s2.Root % W64 := by
  cases op with
  | insert i d =>
    simp only [applyOp] at h
    cases hins : IntervalTree.Insert s i d with
    | thrown s3 =>
      rw [hins] at h
      injection h with h
      subst h
      rw [InsertPub_thrown hins]
      exact hs
    | crash => rw [hins] at h; simp at h
    | ok s3 =>
      rw [hins] at h
      injection h with h
      subst h
      obtain ⟨_, _, hcount, hsize, _⟩ := InsertPub_ok hins hb hm
      rw [hsize, hcount, hs, Nat.mod_add_mod]
  | remove i =>
    simp only [applyOp, Option.some.injEq] at h
    subst h
    exact remove_size_step hg hb hs
  | update oldI newI d =>
    simp only [applyOp, IntervalTree.Update] at h
    have hs1 : (IntervalTree.Remove s oldI).size =
        Tree.countNodes (IntervalTree.Remove s oldI).Root % W64 :=
      remove_size_step hg hb hs
    obtain ⟨hb1, hm1⟩ := wf_RemovePub oldI hb hm
    cases hins : IntervalTree.Insert (IntervalTree.Remove s oldI) newI d with
    | thrown s3 =>
      rw [hins] at h
      injection h with h
      subst h
      rw [InsertPub_thrown hins]
      exact hs1
    | crash => rw [hins] at h; simp at h
    | ok s3 =>
      rw [hins] at h
      injection h with h
      subst h
      obtain ⟨_, _, hcount, hsize, _⟩ := InsertPub_ok hins hb1 hm1
      rw [hsize, hcount, hs1, Nat.mod_add_mod]
  | clear =>
    simp only [applyOp, IntervalTree.Clear, Option.some.injEq] at h
    subst h
    simp [Tree.countNodes]

theorem guarded_size_from :
    ∀ (ops : List Op) (s s2 : IntervalTree), runOps s ops = some s2 →
      guardedRun s ops = true →
      Tree.bst s.Root = true → Tree.maxInv s.Root = true →
      s.size = Tree.countNodes s.Root % W64 →
      s2.size = Tree.countNodes s2.Root % W64 := by
  intro ops
  induction ops with
  | nil =>
    intro s s2 h _ _ _ hs
    simp only [runOps, Option.some.injEq] at h
    subst h
    exact hs
  | cons op rest ih =>
    intro s s2 h hg hb hm hs
    simp only [runOps] at h
    simp only [guardedRun, Bool.and_eq_true] at hg
    cases happ : applyOp s op with
    | none => rw [happ] at h; simp at h
    | some s1 =>
      rw [happ] at h
      rw [happ] at hg
      obtain ⟨hb1, hm1⟩ := wf_applyOp happ hb hm
      exact ih s1 s2 h hg.2 hb1 hm1 (guarded_size_step happ hg.1 hb hm hs)

/-! ### Query algorithms -/

theorem overlapPred_true_iff {lo hi : Int} {q : Interval × Payload} :
    overlapPred lo hi q = true ↔ q.1.low ≤ hi ∧ lo ≤ q.1.high := by
  simp [overlapPred]

theorem overlapPred_false_of_not {lo hi : Int} {q : Interval × Payload}
    (h : ¬(q.1.low ≤ hi ∧ lo ≤ q.1.high)) : overlapPred lo hi q = false := by
  rw [← Bool.not_eq_true, overlapPred_true_iff]
  exact h

theorem containPred_eq_overlapPred (v : Int) (q : Interval × Payload) :
    containPred v q = overlapPred v v q := by
  simp [containPred, overlapPred]

namespace Tree

theorem FindContaining_eq_FindOverlapping :
    ∀ (t : Tree) (v : Int) (acc : List (Interval × Payload)),
      FindContaining t v acc = FindOverlapping t v v acc := by
  intro t
  induction t with
  | nil => intro v acc; rfl
  | node iv m l r d ihl ihr =>
    intro v acc
    simp only [FindContaining, FindOverlapping, ihl, ihr]

theorem Contains_eq_Overlaps : ∀ (t : Tree) (v : Int),
    Tree.Contains t v = Tree.Overlaps t v v := by
  intro t
  induction t with
  | nil => intro v; rfl
  | node iv m l r d ihl ihr =>
    intro v
    simp only [Contains, Overlaps, ihl, ihr]

theorem pruned_no_overlap {l : Tree} {lo hi : Int} (hm : maxInv l = true)
    (hg : maxAtLeast l lo = false) :
    ∀ q ∈ pairs l, ¬ overlapPred lo hi q = true := by
  cases l with
  | nil => simp [pairs]
  | node liv lm ll lr ld =>
    intro q hq
    have hlt : lm < lo := by simpa [maxAtLeast, not_le] using hg
    have hhigh : q.1.high ≤ lm := maxInv_high_le hm hq
    rw [overlapPred_true_iff]
    rintro ⟨_, h2⟩
    exact absurd (lt_of_le_of_lt (le_trans h2 hhigh) hlt) (lt_irrefl lo)

theorem FindOverlapping_perm :
    ∀ (t : Tree), maxInv t = true → ∀ (lo hi : Int) (acc : List (Interval × Payload)),
      (FindOverlapping t lo hi acc).Perm
        (acc ++ (pairs t).filter (overlapPred lo hi)) := by
  intro t
  induction t with
  | nil => intro _ lo hi acc; simp [FindOverlapping, pairs]
  | node iv m l r d ihl ihr =>
    intro hm lo hi acc
    obtain ⟨hml, hmr⟩ := maxInv_of_node hm
    simp only [FindOverlapping]
    have h1 : (if iv.low ≤ hi ∧ lo ≤ iv.high then acc ++ [(iv, d)] else acc) =
        acc ++ [(iv, d)].filter (overlapPred lo hi) := by
      by_cases hc : iv.low ≤ hi ∧ lo ≤ iv.high
      · rw [if_pos hc]
        have : overlapPred lo hi (iv, d) = true := overlapPred_true_iff.mpr hc
        simp [List.filter, this]
      · rw [if_neg hc]
        have : overlapPred lo hi (iv, d) = false := overlapPred_false_of_not hc
        simp [List.filter, this]
    have h2 : (if maxAtLeast l lo = true then
          FindOverlapping l lo hi
            (if iv.low ≤ hi ∧ lo ≤ iv.high then acc ++ [(iv, d)] else acc)
        else (if iv.low ≤ hi ∧ lo ≤ iv.high then acc ++ [(iv, d)] else acc)).Perm
        ((acc ++ [(iv, d)].filter (overlapPred lo hi)) ++
          (pairs l).filter (overlapPred lo hi)) := by
      by_cases hguard : maxAtLeast l lo = true
      · rw [if_pos hguard, h1]
        exact ihl hml lo hi _
      · rw [if_neg hguard, h1]
        rw [List.filter_eq_nil_iff.mpr
          (pruned_no_overlap hml (Bool.eq_false_iff.mpr hguard))]
        simp
    refine ((ihr hmr lo hi _).trans (h2.append_right _)).trans ?_
    rw [pairs, show (iv, d) :: pairs r = [(iv, d)] ++ pairs r from rfl,
      List.filter_append, List.filter_append]
    simp only [List.append_assoc]
    exact List.Perm.append_left acc (List.perm_append_comm_assoc _ _ _)

theorem Overlaps_exists :
    ∀ (t : Tree), bst t = true → maxInv t = true → ∀ (lo hi : Int),
      (Tree.Overlaps t lo hi = true ↔ ∃ q ∈ pairs t, overlapPred lo hi q = true) := by
  intro t
  induction t with
  | nil => intro _ _ lo hi; simp [Overlaps, pairs]
  | node iv m l r d ihl ihr =>
    intro hb hm lo hi
    rw [bst_node_iff] at hb
    obtain ⟨hbl, hbr, hbstl, hbstr⟩ := hb
    obtain ⟨hml, hmr⟩ := maxInv_of_node hm
    simp only [Overlaps]
    by_cases hc : iv.low ≤ hi ∧ lo ≤ iv.high
    · rw [if_pos hc]
      constructor
      · intro _
        exact ⟨(iv, d), mem_pairs_node.mpr (Or.inr (Or.inl rfl)),
          overlapPred_true_iff.mpr hc⟩
      · intro _; rfl
    · rw [if_neg hc]
      have hcroot : overlapPred lo hi (iv, d) = false := overlapPred_false_of_not hc
      by_cases hguard : maxAtLeast l lo = true
      · rw [if_pos hguard, ihl hbstl hml lo hi]
        constructor
        · rintro ⟨q, hq, hq2⟩
          exact ⟨q, mem_pairs_node.mpr (Or.inl hq), hq2⟩
        · rintro ⟨q, hq, hq2⟩
          rcases mem_pairs_node.mp hq with hql | hqroot | hqr
          · exact ⟨q, hql, hq2⟩
          · rw [hqroot] at hq2
            rw [hcroot] at hq2
            cases hq2
          · cases l with
            | nil => simp [maxAtLeast] at hguard
            | node liv lm2 ll lr ld =>
              obtain ⟨J, hJmem, hJhigh⟩ := maxInv_exists_high hml
              have hJlo : J.1.low ≤ iv.low := hbl J hJmem
              have hqlo : iv.low ≤ q.1.low := hbr q hqr
              have hqhi : q.1.low ≤ hi := (overlapPred_true_iff.mp hq2).1
              have hlm : lo ≤ lm2 := by simpa [maxAtLeast] using hguard
              exact ⟨J, hJmem, overlapPred_true_iff.mpr
                ⟨le_trans hJlo (le_trans hqlo hqhi), le_trans hlm hJhigh⟩⟩
      · rw [if_neg hguard, ihr hbstr hmr lo hi]
        constructor
        · rintro ⟨q, hq, hq2⟩
          exact ⟨q, mem_pairs_node.mpr (Or.inr (Or.inr hq)), hq2⟩
        · rintro ⟨q, hq, hq2⟩
          rcases mem_pairs_node.mp hq with hql | hqroot | hqr
          · exact absurd hq2
              (pruned_no_overlap hml (Bool.eq_false_iff.mpr hguard) q hql)
          · rw [hqroot] at hq2
            rw [hcroot] at hq2
            cases hq2
          · exact ⟨q, hqr, hq2⟩

end Tree

theorem minMaxPred_true_iff {lo hi : Int} {q : Interval × Payload} :
    minMaxPred lo hi q = true ↔ lo ≤ q.1.high ∧ q.1.low ≤ hi := by
  simp [minMaxPred]

namespace Tree

theorem FindByMinMaxSpec_perm :
    ∀ (t : Tree) (lo hi : Int) (acc : List (Interval × Payload)),
      (FindByMinMaxSpec t lo hi acc).Perm
        (acc ++ (pairs t).filter (minMaxPred lo hi)) := by
  intro t
  induction t with
  | nil => intro lo hi acc; simp [FindByMinMaxSpec, pairs]
  | node iv m l r d ihl ihr =>
    intro lo hi acc
    simp only [FindByMinMaxSpec]
    have h1 : (if lo ≤ iv.high ∧ iv.low ≤ hi then acc ++ [(iv, d)] else acc) =
        acc ++ [(iv, d)].filter (minMaxPred lo hi) := by
      by_cases hc : lo ≤ iv.high ∧ iv.low ≤ hi
      · have hp : minMaxPred lo hi (iv, d) = true := minMaxPred_true_iff.mpr hc
        rw [if_pos hc]
        simp [List.filter, hp]
      · have hp : minMaxPred lo hi (iv, d) = false := by
          rw [← Bool.not_eq_true, minMaxPred_true_iff]
          exact hc
        rw [if_neg hc]
        simp [List.filter, hp]
    rw [h1]
    refine (ihr lo hi _).trans (((ihl lo hi _).append_right _).trans ?_)
    rw [pairs, show (iv, d) :: pairs r = [(iv, d)] ++ pairs r from rfl,
      List.filter_append, List.filter_append]
    simp only [List.append_assoc]
    exact List.Perm.append_left acc (List.perm_append_comm_assoc _ _ _)

end Tree

theorem fold_assemble (xs ys : List Int) (h a : Int) :
    ys.foldr max (xs.foldr max (max a h)) = xs.foldr max (max h (ys.foldr max a)) := by
  rw [max_comm a h, foldr_max_comm, foldr_max_comm, foldr_max_comm, foldr_max_exchange]

namespace Tree

theorem MaxHighOverlapping_fold :
    ∀ (t : Tree), maxInv t = true → ∀ (lo hi a : Int),
      Tree.MaxHighOverlapping t lo hi a =
        (((pairs t).filter (overlapPred lo hi)).map (fun q => q.1.high)).foldr max a := by
  intro t
  induction t with
  | nil => intro _ lo hi a; simp [MaxHighOverlapping, pairs]
  | node iv m l r d ihl ihr =>
    intro hm lo hi a
    obtain ⟨hml, hmr⟩ := maxInv_of_node hm
    simp only [MaxHighOverlapping]
    rw [ihr hmr]
    rw [pairs, show (iv, d) :: pairs r = [(iv, d)] ++ pairs r from rfl,
      List.filter_append, List.filter_append, List.map_append, List.map_append,
      List.foldr_append, List.foldr_append]
    by_cases hc : iv.low ≤ hi ∧ lo ≤ iv.high
    · have hp : overlapPred lo hi (iv, d) = true := overlapPred_true_iff.mpr hc
      have hf1 : [(iv, d)].filter (overlapPred lo hi) = [(iv, d)] := by
        simp [List.filter, hp]
      rw [if_pos hc, hf1]
      by_cases hguard : maxAtLeast l lo = true
      · rw [if_pos hguard, ihl hml]
        exact fold_assemble _ _ iv.high a
      · rw [if_neg hguard]
        rw [List.filter_eq_nil_iff.mpr
          (pruned_no_overlap hml (Bool.eq_false_iff.mpr hguard))]
        simp only [List.map_nil, List.foldr_nil, List.map_cons, List.foldr_cons]
        rw [max_comm a iv.high, foldr_max_comm]
    · have hp : overlapPred lo hi (iv, d) = false := overlapPred_false_of_not hc
      have hf1 : [(iv, d)].filter (overlapPred lo hi) = [] := by
        simp [List.filter, hp]
      rw [if_neg hc, hf1]
      by_cases hguard : maxAtLeast l lo = true
      · rw [if_pos hguard, ihl hml]
        simp only [List.map_nil, List.foldr_nil]
        exact foldr_max_exchange a _ _
      · rw [if_neg hguard]
        rw [List.filter_eq_nil_iff.mpr
          (pruned_no_overlap hml (Bool.eq_false_iff.mpr hguard))]
        simp

theorem concatStrs_append :
    ∀ (xs ys : List String), concatStrs (xs ++ ys) = concatStrs xs ++ concatStrs ys := by
  intro xs ys
  induction xs with
  | nil => simp [concatStrs, String.empty_append]
  | cons x xs ih => simp [concatStrs, ih, String.append_assoc]

theorem ToString_eq_concat :
    ∀ (t : Tree),
      Tree.ToString t = concatStrs ((pairs t).map (fun q => renderInterval q.1)) := by
  intro t
  induction t with
  | nil => rfl
  | node iv m l r d ihl ihr =>
    simp only [ToString, pairs, List.map_append, List.map_cons, concatStrs_append,
      concatStrs, ihl, ihr, String.append_assoc]

theorem bst_pairs_sorted :
    ∀ (t : Tree), bst t = true →
      (pairs t).Pairwise (fun a b => a.1.low ≤ b.1.low) := by
  intro t
  induction t with
  | nil => intro _; simp [pairs]
  | node iv m l r d ihl ihr =>
    intro hb
    rw [bst_node_iff] at hb
    obtain ⟨hbl, hbr, hl, hr⟩ := hb
    rw [pairs]
    refine List.pairwise_append.mpr ⟨ihl hl, ?_, ?_⟩
    · refine List.pairwise_cons.mpr ⟨fun b hb2 => hbr b hb2, ihr hr⟩
    · intro q hq b hb2
      rcases List.mem_cons.mp hb2 with hb2 | hb2
      · rw [hb2]
        exact hbl q hq
      · exact le_trans (hbl q hq) (hbr b hb2)

end Tree

/-! ### Remaining bridge lemmas -/

theorem validInsert_not_thrown {s s3 : IntervalTree} {i : Interval} {d : Payload}
    (hv : i.low ≤ i.high) (h : IntervalTree.Insert s i d = .thrown s3) : False := by
  simp only [IntervalTree.Insert, if_neg (not_lt.mpr hv)] at h
  cases hins : Tree.Insert s.Root i d with
  | none => rw [hins] at h; cases h
  | some root2 => rw [hins] at h; cases h

theorem insertRun_count :
    ∀ (ops : List Op) (s s2 : IntervalTree), runOps s ops = some s2 →
      ops.all Op.isValidInsert = true →
      Tree.bst s.Root = true → Tree.maxInv s.Root = true →
      Tree.countNodes s2.Root = Tree.countNodes s.Root + ops.length := by
  intro ops
  induction ops with
  | nil =>
    intro s s2 h _ _ _
    simp only [runOps, Option.some.injEq] at h
    subst h
    simp
  | cons op rest ih =>
    intro s s2 h hall hb hm
    simp only [List.all_cons, Bool.and_eq_true] at hall
    cases op with
    | insert i d =>
      have hv : i.low ≤ i.high := by
        simpa [Op.isValidInsert] using hall.1
      simp only [runOps, applyOp] at h
      cases hins : IntervalTree.Insert s i d with
      | thrown s3 => exact absurd hins (fun hc => validInsert_not_thrown hv hc)
      | crash => rw [hins] at h; simp at h
      | ok s3 =>
        rw [hins] at h
        obtain ⟨hb3, hm3, hcount, _⟩ := InsertPub_ok hins hb hm
        have := ih s3 s2 h hall.2 hb3 hm3
        rw [this, hcount]
        simp only [List.length_cons]
        omega
    | remove i => simp [Op.isValidInsert] at hall
    | update oldI newI d => simp [Op.isValidInsert] at hall
    | clear => simp [Op.isValidInsert] at hall

theorem Containing_eq_Overlapping (s : IntervalTree) (v : Int) :
    IntervalTree.Containing s v = IntervalTree.Overlapping s v v :=
  Tree.FindContaining_eq_FindOverlapping s.Root v []

theorem ContainsPub_eq_OverlapsPub (s : IntervalTree) (v : Int) :
    IntervalTree.Contains s v = IntervalTree.Overlaps s v v :=
  Tree.Contains_eq_Overlaps s.Root v

theorem Overlapping_perm_filter (s : IntervalTree) (lo hi : Int)
    (hm : Tree.maxInv s.Root = true) :
    (IntervalTree.Overlapping s lo hi).Perm
      ((Tree.pairs s.Root).filter (overlapPred lo hi)) := by
  have h0 := Tree.FindOverlapping_perm s.Root hm lo hi []
  rw [List.nil_append] at h0
  exact h0

theorem Overlapping_ne_nil_iff (s : IntervalTree) (lo hi : Int)
    (hm : Tree.maxInv s.Root = true) :
    IntervalTree.Overlapping s lo hi ≠ [] ↔
      ∃ q ∈ Tree.pairs s.Root, overlapPred lo hi q = true := by
  have hperm := Overlapping_perm_filter s lo hi hm
  constructor
  · intro hne
    have hne2 : (Tree.pairs s.Root).filter (overlapPred lo hi) ≠ [] := by
      intro hnil
      rw [hnil] at hperm
      exact hne (List.Perm.eq_nil hperm)
    obtain ⟨x, hx⟩ := List.exists_mem_of_ne_nil _ hne2
    obtain ⟨hx1, hx2⟩ := List.mem_filter.mp hx
    exact ⟨x, hx1, hx2⟩
  · rintro ⟨q, hq, hp⟩ hnil
    rw [hnil] at hperm
    exact absurd hp ((List.filter_eq_nil_iff.mp hperm.symm.eq_nil) q hq)

/-! ### The claims -/

/-- Claim C1, counterexample: starting from the empty tree, `Insert(1,10)` then
`Remove((5,7))` gives `Size() = 0` while one node is still reachable from the
root: the point-probe `Contains(5)` succeeds (the stored interval `[1,10]`
covers 5), so `size` is decremented, but the low-keyed deletion finds no node
with `low = 5` and removes nothing. -/
theorem C1_size_counterexample :
    runOps IntervalTree.empty c1Ops = some c1State ∧
      IntervalTree.Size c1State = 0 ∧ Tree.countNodes c1State.Root = 1 :=
  ⟨by rfl, rfl, rfl⟩

/-- Claim C1, amended: for every sequence of `Insert`/`Remove` operations from
the empty tree in which every `Remove` whose point-probe succeeds names a `low`
value that is actually stored, `Size()` equals the number of nodes reachable
from the root (as a `size_t`, i.e. modulo `2^64`; exactly, whenever the node
count is below `2^64`). -/
theorem C1_size_amended (ops : List Op) (s : IntervalTree)
    (hops : ∀ op ∈ ops, op.isInsRem = true)
    (hrun : runOps IntervalTree.empty ops = some s)
    (hguard : guardedRun IntervalTree.empty ops = true) :
    IntervalTree.Size s = Tree.countNodes s.Root % W64 ∧
      (Tree.countNodes s.Root < W64 → IntervalTree.Size s = Tree.countNodes s.Root) := by
  have h1 := guarded_size_from ops IntervalTree.empty s hrun hguard (by rfl) (by rfl)
    (by decide)
  refine ⟨h1, fun hlt => ?_⟩
  rw [Nat.mod_eq_of_lt hlt] at h1
  exact h1

/-- Witness for the amended C1 at a concrete guarded insert/remove run. -/
theorem C1_size_amended_witness :
    (∀ op ∈ c1wOps, op.isInsRem = true) ∧
      runOps IntervalTree.empty c1wOps = some c1wState ∧
      guardedRun IntervalTree.empty c1wOps = true ∧
      IntervalTree.Size c1wState = Tree.countNodes c1wState.Root % W64 :=
  ⟨by decide, by rfl, by rfl,
    (C1_size_amended c1wOps c1wState (by decide) (by rfl) (by rfl)).1⟩

/-- Claim C2: after every sequence of public operations (`Insert`, `Remove`,
`Update`, `Clear`) that completes, every node's `max` field equals
`max(own high, left.max if present, right.max if present)`, and equivalently
the maximum `high` over the node's own interval and all of its descendants. -/
theorem C2_max_augmentation (ops : List Op) (s : IntervalTree)
    (hrun : runOps IntervalTree.empty ops = some s) :
    Tree.maxInv s.Root = true ∧ Tree.maxCorrect s.Root = true := by
  obtain ⟨_, hm⟩ := wf_runOps hrun
  exact ⟨hm, Tree.maxInv_maxCorrect _ hm⟩

/-- Witness for C2 on a run exercising all four mutators. -/
theorem C2_max_augmentation_witness :
    runOps IntervalTree.empty c2Ops = some c2State ∧
      Tree.maxInv c2State.Root = true ∧ Tree.maxCorrect c2State.Root = true :=
  ⟨by rfl, C2_max_augmentation c2Ops c2State (by rfl)⟩

/-- Claim C3, code bug: after inserting `(1,3)` and `(5,8)`, the range query
`FindByMinMax(0,100)` returns only the root's interval even though `(5,8)` is
stored and satisfies the predicate `high ≥ 0 ∧ low ≤ 100`: the recursive calls
drop the result accumulator (lines 552-553 name no existing overload), so child
subtrees contribute nothing.  The spec-repaired traversal returns both. -/
theorem C3_findByMinMax_bug :
    runOps IntervalTree.empty c3Ops = some c3State ∧
      IntervalTree.FindByMinMax c3State 0 100 = [(⟨1, 3⟩, none)] ∧
      (⟨5, 8⟩, none) ∈ Tree.pairs c3State.Root ∧
      minMaxPred 0 100 ((⟨5, 8⟩ : Interval), (none : Payload)) = true ∧
      (Tree.pairs c3State.Root).filter (minMaxPred 0 100) =
        [(⟨1, 3⟩, none), (⟨5, 8⟩, none)] ∧
      Tree.FindByMinMaxSpec c3State.Root 0 100 [] =
        [(⟨1, 3⟩, none), (⟨5, 8⟩, none)] :=
  ⟨by rfl, rfl, by decide, by decide, by decide, rfl⟩

/-- Claim C4: on every tree satisfying the search-order and augmentation
invariants (all trees produced by the public interface satisfy them), the
boolean `Contains(value)` is true exactly when `Containing(value)` is
non-empty, and `Overlaps(lo,hi)` is true exactly when `Overlapping(lo,hi)` is
non-empty: the one-sided descent of the boolean forms never misses a match,
because a left `max` guard that fires while no left match exists forces every
potential root/right match to fail as well. -/
theorem C4_bool_queries (s : IntervalTree) (v lo hi : Int)
    (hb : Tree.bst s.Root = true) (hm : Tree.maxInv s.Root = true) :
    (IntervalTree.Contains s v = true ↔ IntervalTree.Containing s v ≠ []) ∧
      (IntervalTree.Overlaps s lo hi = true ↔ IntervalTree.Overlapping s lo hi ≠ []) := by
  constructor
  · rw [ContainsPub_eq_OverlapsPub, Containing_eq_Overlapping,
      Overlapping_ne_nil_iff s v v hm]
    exact Tree.Overlaps_exists s.Root hb hm v v
  · rw [Overlapping_ne_nil_iff s lo hi hm]
    exact Tree.Overlaps_exists s.Root hb hm lo hi

/-- Witness for C4 on the spec's section-8 scenario tree. -/
theorem C4_bool_queries_witness :
    Tree.bst exTree4.Root = true ∧ Tree.maxInv exTree4.Root = true ∧
      ((IntervalTree.Contains exTree4 6 = true ↔ IntervalTree.Containing exTree4 6 ≠ []) ∧
        (IntervalTree.Overlaps exTree4 4 5 = true ↔
          IntervalTree.Overlapping exTree4 4 5 ≠ [])) :=
  ⟨by decide, by decide, C4_bool_queries exTree4 6 4 5 (by decide) (by decide)⟩

/-- Claim C5, code bug: six valid inserts whose lows are
`10, 5, 20, 15, 25, 20` (the low 20 repeats; ties go right) leave a tree in
which the node `(20,20)` on the right spine has balance `-2`: the dispatch
`i.low > right->interval.low` misclassifies the equal-low insertion as a
right-left case and the double rotation breaks the AVL shape. -/
theorem C5_balance_bug :
    runOps IntervalTree.empty c5Ops = some c5State ∧
      Tree.avl c5State.Root = false :=
  ⟨by rfl, rfl⟩

/-- Claim C6, code bug: inserting the valid interval `(5,5)` three times makes
the third `Insert` reach `RotateRight` on a node whose left child is null
(`newRoot = node->left` is null and `newRoot->right` is dereferenced), so the
insertion does not complete; the run of the three inserts has no final state. -/
theorem C6_insert_crash :
    runOps IntervalTree.empty c6Ops = none ∧
      Tree.RotateRight (Tree.node ⟨5, 5⟩ 5 Tree.nil
        (Tree.node ⟨5, 5⟩ 5 Tree.nil Tree.nil none) none) = none :=
  ⟨by rfl, rfl⟩

/-- Claim C7: on every tree satisfying the augmentation invariant,
`Overlapping(lo,hi)` returns exactly the stored pairs with
`low ≤ hi ∧ high ≥ lo`, each once (a permutation of the filtered stored
pairs); consequently a run of N valid inserts followed by a covering query
returns exactly N entries. -/
theorem C7_overlapping_roundtrip (s : IntervalTree) (lo hi : Int)
    (hm : Tree.maxInv s.Root = true) :
    (IntervalTree.Overlapping s lo hi).Perm
        ((Tree.pairs s.Root).filter (overlapPred lo hi)) ∧
      (∀ ops : List Op, runOps IntervalTree.empty ops = some s →
        ops.all Op.isValidInsert = true →
        (∀ q ∈ Tree.pairs s.Root, overlapPred lo hi q = true) →
        (IntervalTree.Overlapping s lo hi).length = ops.length) := by
  have hperm := Overlapping_perm_filter s lo hi hm
  refine ⟨hperm, fun ops hrun hins hall => ?_⟩
  have hcount := insertRun_count ops IntervalTree.empty s hrun hins (by rfl) (by rfl)
  rw [hperm.length_eq, List.filter_eq_self.mpr hall, ← Tree.countNodes_eq_length, hcount]
  simp [IntervalTree.empty, Tree.countNodes]

/-- Witness for C7 on the spec's scenario: four inserts, covering query. -/
theorem C7_overlapping_roundtrip_witness :
    Tree.maxInv exTree4.Root = true ∧
      runOps IntervalTree.empty exOps4 = some exTree4 ∧
      exOps4.all Op.isValidInsert = true ∧
      ((IntervalTree.Overlapping exTree4 0 100).Perm
          ((Tree.pairs exTree4.Root).filter (overlapPred 0 100)) ∧
        (∀ ops : List Op, runOps IntervalTree.empty ops = some exTree4 →
          ops.all Op.isValidInsert = true →
          (∀ q ∈ Tree.pairs exTree4.Root, overlapPred 0 100 q = true) →
          (IntervalTree.Overlapping exTree4 0 100).length = ops.length)) :=
  ⟨by decide, by rfl, by decide, C7_overlapping_roundtrip exTree4 0 100 (by decide)⟩

/-- Claim C8: `Insert(low, high, payload)` with `low > high` throws
`std::invalid_argument` before any mutation: the outcome is `thrown s` with the
tree state `s` exactly as it was, so nodes, intervals, payloads and `Size()`
are all unchanged. -/
theorem C8_invalid_insert (s : IntervalTree) (i : Interval) (d : Payload)
    (h : i.high < i.low) :
    IntervalTree.Insert s i d = IntervalTree.InsOutcome.thrown s := by
  simp [IntervalTree.Insert, if_pos h]

/-- Witness for C8 at the spec's rejection example `Insert(5, 2)`. -/
theorem C8_invalid_insert_witness :
    ((2 : Int) < 5) ∧
      IntervalTree.Insert exTree4 ⟨5, 2⟩ none =
        IntervalTree.InsOutcome.thrown exTree4 :=
  ⟨by decide, C8_invalid_insert exTree4 ⟨5, 2⟩ none (by decide)⟩

/-- Claim C9: on every tree satisfying the augmentation invariant,
`MaxHighOverlapping(lo,hi)` is an upper bound on the `high` of every stored
overlapping interval, is attained by one of them unless it is the sentinel
`INT_MIN`, and equals `INT_MIN` whenever no stored interval overlaps (in
particular on the empty tree). -/
theorem C9_maxHighOverlapping (s : IntervalTree) (lo hi : Int)
    (hm : Tree.maxInv s.Root = true) :
    ((Tree.pairs s.Root).filter (overlapPred lo hi) = [] →
        IntervalTree.MaxHighOverlapping s lo hi = intMin) ∧
      (∀ q ∈ (Tree.pairs s.Root).filter (overlapPred lo hi),
        q.1.high ≤ IntervalTree.MaxHighOverlapping s lo hi) ∧
      (IntervalTree.MaxHighOverlapping s lo hi = intMin ∨
        ∃ q ∈ (Tree.pairs s.Root).filter (overlapPred lo hi),
          IntervalTree.MaxHighOverlapping s lo hi = q.1.high) := by
  have hf : IntervalTree.MaxHighOverlapping s lo hi =
      (((Tree.pairs s.Root).filter (overlapPred lo hi)).map
        (fun q => q.1.high)).foldr max intMin :=
    Tree.MaxHighOverlapping_fold s.Root hm lo hi intMin
  refine ⟨fun hnil => ?_, fun q hq => ?_, ?_⟩
  · rw [hf, hnil]
    rfl
  · rw [hf]
    exact mem_le_foldr_max (List.mem_map_of_mem _ hq) intMin
  · rw [hf]
    rcases foldr_max_mem intMin
        (((Tree.pairs s.Root).filter (overlapPred lo hi)).map (fun q => q.1.high))
      with h2 | h2
    · exact Or.inl h2
    · obtain ⟨q, hq, hq2⟩ := List.mem_map.mp h2
      exact Or.inr ⟨q, hq, hq2.symm⟩

/-- Witness for C9 on the scenario tree with the covering range `(0,100)`. -/
theorem C9_maxHighOverlapping_witness :
    Tree.maxInv exTree4.Root = true ∧
      (((Tree.pairs exTree4.Root).filter (overlapPred 0 100) = [] →
          IntervalTree.MaxHighOverlapping exTree4 0 100 = intMin) ∧
        (∀ q ∈ (Tree.pairs exTree4.Root).filter (overlapPred 0 100),
          q.1.high ≤ IntervalTree.MaxHighOverlapping exTree4 0 100) ∧
        (IntervalTree.MaxHighOverlapping exTree4 0 100 = intMin ∨
          ∃ q ∈ (Tree.pairs exTree4.Root).filter (overlapPred 0 100),
            IntervalTree.MaxHighOverlapping exTree4 0 100 = q.1.high)) :=
  ⟨by decide, C9_maxHighOverlapping exTree4 0 100 (by decide)⟩

/-- Claim C10: `ToString()` renders the stored intervals in in-order sequence,
each as `"[low, high] "`, and on every tree satisfying the search ordering the
in-order sequence is ascending by `low`. -/
theorem C10_toString (s : IntervalTree) (hb : Tree.bst s.Root = true) :
    IntervalTree.ToString s =
        concatStrs ((Tree.pairs s.Root).map (fun q => Tree.renderInterval q.1)) ∧
      (Tree.pairs s.Root).Pairwise (fun a b => a.1.low ≤ b.1.low) :=
  ⟨Tree.ToString_eq_concat s.Root, Tree.bst_pairs_sorted s.Root hb⟩

/-- Witness for C10: the spec's scenario tree renders exactly as promised. -/
theorem C10_toString_witness :
    Tree.bst exTree4.Root = true ∧
      IntervalTree.ToString exTree4 = "[1, 3] [2, 6] [5, 8] [15, 20] " ∧
      (IntervalTree.ToString exTree4 =
          concatStrs ((Tree.pairs exTree4.Root).map (fun q => Tree.renderInterval q.1)) ∧
        (Tree.pairs exTree4.Root).Pairwise (fun a b => a.1.low ≤ b.1.low)) :=
  ⟨by decide, by rfl, C10_toString exTree4 (by decide)⟩

end CCM
